/-
Verification of the retrieval pipeline of a local RAG system.

The development shallowly embeds the Python source of the repository:
  * `data_loader.py`  — chunking (`_process_text_content`, `_split_long_text`)
                        and folder fingerprinting (`get_folder_hash`);
  * `vector_store.py` — the similarity filter and fallback cascade (`query`,
                        `_fallback_query_all_docs`);
  * `rag_system.py`   — context assembly (`query` lines 65-82,
                        `_prioritize_documents`).

Modelling conventions:
  * Python strings are lists of characters (`List Char`) in the chunker, and
    Lean `String`s at the store/assembler level.
  * Python floats are modelled as rationals (`ℚ`); the claims under study
    compare similarities far from representation boundaries, so the exact
    rational model is faithful for them.
  * Python's `list.sort` / `sorted` are stable sorts; they are embedded as
    `List.insertionSort` with a non-strict "may come before" relation, which
    is a stable sort with the same extensional behaviour.
  * Fallible operations return `Except`.
-/
import Mathlib

set_option maxRecDepth 100000
set_option maxHeartbeats 4000000

attribute [local semireducible] Rat.sub Rat.add Rat.mul Rat.inv Rat.ofScientific

/-! ### Configuration constants (config.py) -/

/-- config.py: `MAX_RESULTS = 150`. -/
def MAX_RESULTS : Nat := 150

/-- config.py: `MIN_SIMILARITY_THRESHOLD = 0.15`. -/
def MIN_SIMILARITY_THRESHOLD : ℚ := 0.15

/-- config.py: `FALLBACK_TO_ALL_DOCS = True`. -/
def FALLBACK_TO_ALL_DOCS : Bool := true

/-- config.py: `FALLBACK_LIMIT = 50`. -/
def FALLBACK_LIMIT : Nat := 50

/-- config.py: `MAX_CHUNK_SIZE = 50`. -/
def MAX_CHUNK_SIZE : Nat := 50

/-- config.py: `MIN_CHUNK_SIZE = 10`. -/
def MIN_CHUNK_SIZE : Nat := 10

/-- config.py: `OVERLAP_SIZE = 10`. -/
def OVERLAP_SIZE : Nat := 10

/-! ### Chunker (data_loader.py) -/

/-- Python `str.strip()`: drop leading and trailing whitespace. -/
def pyStrip (l : List Char) : List Char :=
  ((l.dropWhile Char.isWhitespace).reverse.dropWhile Char.isWhitespace).reverse

/-- Python slice `text[a:b]` for `a ≤ b` (out-of-range `b` is clamped). -/
def sliceList (l : List Char) (a b : Nat) : List Char := (l.take b).drop a

/-- The hard-split punctuation set of `_split_long_text`: `'。！？；，、'`. -/
def chunkPunct : List Char := "。！？；，、".data

/-- `_is_header_line`: the line contains a tab, comma or pipe. -/
def isHeaderLine (line : List Char) : Bool :=
  line.contains '\t' || line.contains ',' || line.contains '|'

/-- The source tag baked into every fragment: `f"[文件: {filename}] "`. -/
def sourceTag (filename : List Char) : List Char :=
  "[文件: ".data ++ filename ++ "] ".data

/--
The backward punctuation scan of `_split_long_text`:
`for i in range(e, stop, -1): if text[i] in '。！？；，、': return i + 1`.
Returns Python's `punctuation_pos` (when positive).  `text.getD i ' '` is only
consulted at indices `i ≤ e < text.length` in the caller, where it equals
Python's `text[i]`.
-/
def findPunctAux (text : List Char) (stop : Nat) (i : Nat) : Option Nat :=
  if h : stop < i then
    if chunkPunct.contains (text.getD i ' ') then some (i + 1)
    else findPunctAux text stop (i - 1)
  else none
termination_by i
decreasing_by omega

/-- The scan of `_split_long_text` with Python's bounds:
`range(end, max(start + MIN_CHUNK_SIZE, end - 100), -1)`. -/
def findPunct (text : List Char) (start e : Nat) : Option Nat :=
  findPunctAux text (max (start + MIN_CHUNK_SIZE) (e - 100)) e

/--
The cut point of one window of `_split_long_text`: `end = start + MAX_CHUNK_SIZE`,
then, when `end < len(text)`, moved to the found `punctuation_pos`
(which is always positive, so Python's `punctuation_pos > 0` test always
succeeds when the scan finds punctuation).
-/
def nextEnd (text : List Char) (start : Nat) : Nat :=
  if start + MAX_CHUNK_SIZE < text.length then
    match findPunct text start (start + MAX_CHUNK_SIZE) with
    | some p => p
    | none => start + MAX_CHUNK_SIZE
  else start + MAX_CHUNK_SIZE

/-- The next loop variable of `_split_long_text`:
`start = end - OVERLAP_SIZE if OVERLAP_SIZE > 0 and end < len(text) else end`. -/
def nextStart (text : List Char) (start : Nat) : Nat :=
  if 0 < OVERLAP_SIZE ∧ nextEnd text start < text.length then
    nextEnd text start - OVERLAP_SIZE
  else nextEnd text start

/-- `findPunctAux` only returns `i + 1` for `stop < i ≤ i₀`. -/
theorem findPunctAux_bounds (text : List Char) (stop i p : Nat)
    (h : findPunctAux text stop i = some p) : stop + 2 ≤ p ∧ p ≤ i + 1 := by
  induction i using Nat.strong_induction_on with
  | _ i ih =>
    rw [findPunctAux] at h
    by_cases hlt : stop < i
    · rw [dif_pos hlt] at h
      by_cases hc : chunkPunct.contains (text.getD i ' ')
      · rw [if_pos hc, Option.some.injEq] at h
        omega
      · rw [if_neg hc] at h
        have := ih (i - 1) (by omega) h
        omega
    · rw [dif_neg hlt] at h
      exact absurd h (by simp)

/-- The cut point lies strictly beyond `start + MIN_CHUNK_SIZE + 1`. -/
theorem nextEnd_lower (text : List Char) (start : Nat) :
    start + MIN_CHUNK_SIZE + 2 ≤ nextEnd text start := by
  have hmm : MIN_CHUNK_SIZE + 2 ≤ MAX_CHUNK_SIZE := by decide
  rw [nextEnd]
  split
  · split
    next p hp =>
      rw [findPunct] at hp
      have := (findPunctAux_bounds text _ _ _ hp).1
      omega
    next => omega
  · omega

/-- The cut point never exceeds `start + MAX_CHUNK_SIZE + 1` (the `+ 1`
arises when punctuation sits exactly at the window boundary). -/
theorem nextEnd_upper (text : List Char) (start : Nat) :
    nextEnd text start ≤ start + MAX_CHUNK_SIZE + 1 := by
  rw [nextEnd]
  split
  · split
    next p hp =>
      rw [findPunct] at hp
      have := (findPunctAux_bounds text _ _ _ hp).2
      omega
    next => omega
  · omega

/--
**C9.** Forward progress of the hard-split loop: from any window start inside
the text, the next window start (after overlap subtraction) is strictly
greater, so the `while start < len(text)` loop of `_split_long_text`
terminates.
-/
theorem c9_split_loop_forward_progress (text : List Char) (start : Nat)
    (h : start < text.length) : start < nextStart text start := by
  have hlo := nextEnd_lower text start
  have hov : MIN_CHUNK_SIZE + 2 > OVERLAP_SIZE ∨ OVERLAP_SIZE ≤ MIN_CHUNK_SIZE + 1 := by decide
  rw [nextStart]
  split
  · simp only [MIN_CHUNK_SIZE] at hlo
    simp only [OVERLAP_SIZE]
    omega
  · simp only [MIN_CHUNK_SIZE] at hlo
    omega

/-- Witness for C9 at a concrete input. -/
theorem c9_witness :
    (0 : Nat) < (List.replicate 60 'a').length ∧
      0 < nextStart (List.replicate 60 'a') 0 :=
  ⟨by decide, c9_split_loop_forward_progress (List.replicate 60 'a') 0 (by decide)⟩

/-- The body of `_split_long_text`'s `while start < len(text)` loop. -/
def splitLongTextAux (text filename : List Char) (start : Nat) : List (List Char) :=
  if h : start < text.length then
    (if MIN_CHUNK_SIZE ≤ (pyStrip (sliceList text start (nextEnd text start))).length then
       [sourceTag filename ++ pyStrip (sliceList text start (nextEnd text start))]
     else []) ++ splitLongTextAux text filename (nextStart text start)
  else []
termination_by text.length - start
decreasing_by
  have := c9_split_loop_forward_progress text start h
  omega

/-- `_split_long_text`. -/
def split_long_text (text filename : List Char) : List (List Char) :=
  splitLongTextAux text filename 0

/-- `_process_text_content`: non-empty stripped lines, optional header skip,
then the short-line path or the hard split per line. -/
def process_text_content (content filename : List Char) : List (List Char) :=
  let lines := ((content.splitOn '\n').map pyStrip).filter (fun l => !l.isEmpty)
  match lines with
  | [] => []
  | l0 :: rest =>
    let contentLines := if isHeaderLine l0 then rest else l0 :: rest
    contentLines.flatMap (fun line =>
      if line.length ≤ MAX_CHUNK_SIZE then
        if MIN_CHUNK_SIZE ≤ line.length then [sourceTag filename ++ line] else []
      else split_long_text line filename)

theorem length_dropWhile_le (p : Char → Bool) (l : List Char) :
    (l.dropWhile p).length ≤ l.length := by
  induction l with
  | nil => simp
  | cons c rest ih =>
    rw [List.dropWhile_cons]
    split
    · exact Nat.le_trans ih (by simp)
    · simp

/-- Stripping only removes characters. -/
theorem pyStrip_length_le (l : List Char) : (pyStrip l).length ≤ l.length := by
  rw [pyStrip]
  calc ((l.dropWhile Char.isWhitespace).reverse.dropWhile Char.isWhitespace).reverse.length
      = ((l.dropWhile Char.isWhitespace).reverse.dropWhile Char.isWhitespace).length := by
        rw [List.length_reverse]
    _ ≤ (l.dropWhile Char.isWhitespace).reverse.length := length_dropWhile_le _ _
    _ = (l.dropWhile Char.isWhitespace).length := by rw [List.length_reverse]
    _ ≤ l.length := length_dropWhile_le _ _

theorem sliceList_length_le (l : List Char) (a b : Nat) :
    (sliceList l a b).length ≤ b - a := by
  rw [sliceList, List.length_drop, List.length_take]
  omega

/-- Every fragment of the hard-split loop is the source tag followed by a
chunk of between `MIN_CHUNK_SIZE` and `MAX_CHUNK_SIZE + 1` characters. -/
theorem mem_splitLongTextAux (text filename : List Char) (start : Nat)
    (frag : List Char) (hm : frag ∈ splitLongTextAux text filename start) :
    ∃ chunk, frag = sourceTag filename ++ chunk ∧
      MIN_CHUNK_SIZE ≤ chunk.length ∧ chunk.length ≤ MAX_CHUNK_SIZE + 1 := by
  have key : ∀ n start frag, text.length - start ≤ n →
      frag ∈ splitLongTextAux text filename start →
      ∃ chunk, frag = sourceTag filename ++ chunk ∧
        MIN_CHUNK_SIZE ≤ chunk.length ∧ chunk.length ≤ MAX_CHUNK_SIZE + 1 := by
    intro n
    induction n with
    | zero =>
      intro start frag hle hmem
      rw [splitLongTextAux, dif_neg (by omega)] at hmem
      exact absurd hmem (by simp)
    | succ n ih =>
      intro start frag hle hmem
      rw [splitLongTextAux] at hmem
      by_cases h : start < text.length
      · rw [dif_pos h] at hmem
        rcases List.mem_append.mp hmem with h1 | h2
        · by_cases hc : MIN_CHUNK_SIZE ≤
              (pyStrip (sliceList text start (nextEnd text start))).length
          · rw [if_pos hc] at h1
            rcases List.mem_singleton.mp h1 with rfl
            refine ⟨pyStrip (sliceList text start (nextEnd text start)), rfl, hc, ?_⟩
            have h3 := pyStrip_length_le (sliceList text start (nextEnd text start))
            have h4 := sliceList_length_le text start (nextEnd text start)
            have h5 := nextEnd_upper text start
            omega
          · rw [if_neg hc] at h1
            exact absurd h1 (by simp)
        · have hprog := c9_split_loop_forward_progress text start h
          exact ih (nextStart text start) frag (by omega) h2
      · rw [dif_neg h] at hmem
        exact absurd hmem (by simp)
  exact key (text.length - start) start frag (Nat.le_refl _) hm

/--
**C1 (amended).** Every fragment emitted by the chunker (`_process_text_content`,
both the short-line path and the `_split_long_text` hard-split path) is the
baked-in source tag `[文件: <filename>] ` followed by a content chunk whose
length lies between `MIN_CHUNK_SIZE` and `MAX_CHUNK_SIZE + 1`; no short
trailing piece is ever emitted (pieces under `MIN_CHUNK_SIZE` are dropped).
The bound `MAX_CHUNK_SIZE` of the original claim holds for the chunk content
only up to one extra character and does not cover the tag prefix.
-/
theorem c1_fragment_length_bounds (content filename : List Char)
    (frag : List Char) (hm : frag ∈ process_text_content content filename) :
    ∃ chunk, frag = sourceTag filename ++ chunk ∧
      MIN_CHUNK_SIZE ≤ chunk.length ∧ chunk.length ≤ MAX_CHUNK_SIZE + 1 := by
  rw [process_text_content] at hm
  split at hm
  · exact absurd hm (by simp)
  · rcases List.mem_flatMap.mp hm with ⟨line, _hline, hfrag⟩
    by_cases hlen : line.length ≤ MAX_CHUNK_SIZE
    · rw [if_pos hlen] at hfrag
      by_cases hmin : MIN_CHUNK_SIZE ≤ line.length
      · rw [if_pos hmin] at hfrag
        rcases List.mem_singleton.mp hfrag with rfl
        exact ⟨line, rfl, hmin, by omega⟩
      · rw [if_neg hmin] at hfrag
        exact absurd hfrag (by simp)
    · rw [if_neg hlen] at hfrag
      exact mem_splitLongTextAux line filename 0 frag hfrag

/-- Witness for C1 at a concrete input: a single ten-character line. -/
theorem c1_witness :
    (sourceTag "f.txt".data ++ List.replicate 10 'a') ∈
        process_text_content (List.replicate 10 'a') "f.txt".data ∧
      ∃ chunk, sourceTag "f.txt".data ++ List.replicate 10 'a' =
          sourceTag "f.txt".data ++ chunk ∧
        MIN_CHUNK_SIZE ≤ chunk.length ∧ chunk.length ≤ MAX_CHUNK_SIZE + 1 :=
  ⟨by decide,
    c1_fragment_length_bounds (List.replicate 10 'a') "f.txt".data
      (sourceTag "f.txt".data ++ List.replicate 10 'a') (by decide)⟩

/-- A 61-character line whose 51st character is a full-width comma. -/
def c1line : List Char := List.replicate 50 'a' ++ ['，'] ++ List.replicate 10 'b'

/--
**C1 counterexample.** On `c1line` with filename `f.txt` the chunker emits a
fragment of 63 characters — more than `MAX_CHUNK_SIZE = 50`: the source-tag
prefix (12 characters) is baked into the fragment, and the punctuation cut at
the window boundary makes the content chunk itself 51 characters long.
-/
theorem c1_counterexample :
    (process_text_content c1line "f.txt".data).map List.length = [63, 32] ∧
      MAX_CHUNK_SIZE < 63 := by
  refine ⟨?_, by decide⟩
  have hl : ((c1line.splitOn '\n').map pyStrip).filter (fun l => !l.isEmpty) = [c1line] := by
    decide
  have hh : isHeaderLine c1line = false := by decide
  have hlen : ¬(c1line.length ≤ MAX_CHUNK_SIZE) := by decide
  rw [process_text_content]
  simp only [hl, hh, Bool.false_eq_true, if_false, List.flatMap_cons, List.flatMap_nil,
    List.append_nil, hlen]
  rw [split_long_text]
  simp +decide [splitLongTextAux, nextStart, nextEnd, findPunct, findPunctAux]

/-! ### Corpus change detector (data_loader.py, `get_folder_hash`) -/

/-- One file of the data folder as `get_folder_hash` sees it: filename,
`str(os.path.getmtime(path))`, and the file's byte content. -/
structure FSEntry where
  name : String
  mtimeStr : String
  content : List UInt8
deriving DecidableEq

/-- UTF-8 encoding, as in Python's `str.encode('utf-8')`. -/
def utf8Bytes (s : String) : List UInt8 := s.data.flatMap String.utf8EncodeChar

/-- The bytes `get_folder_hash` feeds to MD5 for one file: encoded filename,
encoded modification-time string, then the raw content (the 4096-byte
read loop concatenates to exactly the content). -/
def entryBytes (e : FSEntry) : List UInt8 :=
  utf8Bytes e.name ++ utf8Bytes e.mtimeStr ++ e.content

/-- The whole byte stream fed to MD5: files in sorted filename order
(`for filename in sorted(os.listdir(...))`; Python's `sorted` is a stable
sort, embedded as `insertionSort`). -/
def folderDigestStream (listing : List FSEntry) : List UInt8 :=
  (List.insertionSort (fun a b : FSEntry => a.name ≤ b.name) listing).flatMap entryBytes

/-- `get_folder_hash`, parameterized by the MD5 hex digest, which is an
opaque function of the byte stream fed to it. -/
def get_folder_hash (md5hex : List UInt8 → String) (listing : List FSEntry) : String :=
  md5hex (folderDigestStream listing)

/-- Two sorted permutations of each other coincide, for an asymmetric
sorting relation. -/
theorem pairwise_perm_eq {α : Type} {r : α → α → Prop}
    (hasym : ∀ a b, r a b → ¬ r b a) {l₁ l₂ : List α} (hp : l₁.Perm l₂)
    (h₁ : l₁.Pairwise r) (h₂ : l₂.Pairwise r) : l₁ = l₂ := by
  haveI : IsAntisymm α r := ⟨fun a b hab hba => absurd hba (hasym a b hab)⟩
  exact List.eq_of_perm_of_sorted hp h₁ h₂

/-- Sorting by filename yields the same list for any listing order, when
filenames are distinct (as they are within one folder). -/
theorem insertionSort_name_eq (l₁ l₂ : List FSEntry) (hperm : l₁.Perm l₂)
    (hnames : (l₁.map FSEntry.name).Nodup) :
    List.insertionSort (fun a b : FSEntry => a.name ≤ b.name) l₁ =
      List.insertionSort (fun a b : FSEntry => a.name ≤ b.name) l₂ := by
  haveI htot : IsTotal FSEntry (fun a b => a.name ≤ b.name) :=
    ⟨fun a b => le_total a.name b.name⟩
  haveI htrans : IsTrans FSEntry (fun a b => a.name ≤ b.name) :=
    ⟨fun a b c hab hbc => le_trans hab hbc⟩
  have hs₁ := List.sorted_insertionSort (fun a b : FSEntry => a.name ≤ b.name) l₁
  have hs₂ := List.sorted_insertionSort (fun a b : FSEntry => a.name ≤ b.name) l₂
  have hp₁ := List.perm_insertionSort (fun a b : FSEntry => a.name ≤ b.name) l₁
  have hp₂ := List.perm_insertionSort (fun a b : FSEntry => a.name ≤ b.name) l₂
  have hnames₂ : (l₂.map FSEntry.name).Nodup := ((hperm.map FSEntry.name).nodup_iff).mp hnames
  have hn₁ : ((List.insertionSort (fun a b : FSEntry => a.name ≤ b.name) l₁).map
      FSEntry.name).Nodup := ((hp₁.map FSEntry.name).nodup_iff).mpr hnames
  have hn₂ : ((List.insertionSort (fun a b : FSEntry => a.name ≤ b.name) l₂).map
      FSEntry.name).Nodup := ((hp₂.map FSEntry.name).nodup_iff).mpr hnames₂
  have hstrict₁ : (List.insertionSort (fun a b : FSEntry => a.name ≤ b.name) l₁).Pairwise
      (fun a b => a.name < b.name) :=
    (hs₁.and (List.pairwise_map.mp hn₁)).imp (fun hab => lt_of_le_of_ne hab.1 hab.2)
  have hstrict₂ : (List.insertionSort (fun a b : FSEntry => a.name ≤ b.name) l₂).Pairwise
      (fun a b => a.name < b.name) :=
    (hs₂.and (List.pairwise_map.mp hn₂)).imp (fun hab => lt_of_le_of_ne hab.1 hab.2)
  exact pairwise_perm_eq (fun a b hab hba => absurd hba (not_lt_of_lt hab))
    (hp₁.trans (hperm.trans hp₂.symm)) hstrict₁ hstrict₂

/--
**C8.** The folder fingerprint is a pure function of the set of
(filename, mtime, content) triples: for listings that are permutations of
each other with distinct filenames, the byte stream fed to MD5 — and hence
the digest, for any digest function — is identical, because the computation
iterates files in sorted filename order.
-/
theorem c8_fingerprint_order_independent (md5hex : List UInt8 → String)
    (l₁ l₂ : List FSEntry) (hperm : l₁.Perm l₂)
    (hnames : (l₁.map FSEntry.name).Nodup) :
    get_folder_hash md5hex l₁ = get_folder_hash md5hex l₂ := by
  rw [get_folder_hash, get_folder_hash, folderDigestStream, folderDigestStream,
    insertionSort_name_eq l₁ l₂ hperm hnames]

def c8entry1 : FSEntry := ⟨"a.txt", "100.0", [65, 66]⟩

def c8entry2 : FSEntry := ⟨"b.txt", "200.0", [67]⟩

/-- Witness for C8: two files listed in either order fingerprint alike. -/
theorem c8_witness :
    ([c8entry1, c8entry2].Perm [c8entry2, c8entry1] ∧
       ([c8entry1, c8entry2].map FSEntry.name).Nodup) ∧
      get_folder_hash (fun _ => "d41d8") [c8entry1, c8entry2] =
        get_folder_hash (fun _ => "d41d8") [c8entry2, c8entry1] :=
  ⟨⟨List.Perm.swap c8entry2 c8entry1 [], by decide⟩,
    c8_fingerprint_order_independent (fun _ => "d41d8") _ _
      (List.Perm.swap c8entry2 c8entry1 []) (by decide)⟩

/-! ### Similarity filter and fallback cascade (vector_store.py) -/

/-- `similarity = 1 - distance if distance is not None else 1.0`. -/
def simOf (dist : Option ℚ) : ℚ :=
  match dist with
  | some d => 1 - d
  | none => 1

/--
The primary filter and sort of `VectorStore.query`: drop the `"data_hash"`
marker, keep candidates with `similarity >= MIN_SIMILARITY_THRESHOLD * 0.8`,
then sort by similarity descending (`filtered_results.sort(key=..., reverse=True)`
is a stable sort, embedded as `insertionSort`).
-/
def tier1Sorted (cands : List (String × Option ℚ)) : List (String × ℚ) :=
  List.insertionSort (fun a b => b.2 ≤ a.2)
    (cands.filterMap (fun c =>
      if c.1 ≠ "data_hash" ∧ MIN_SIMILARITY_THRESHOLD * 0.8 ≤ simOf c.2 then
        some (c.1, simOf c.2)
      else none))

/-- `final_documents = [doc for doc, similarity in filtered_results[:n_results]]`. -/
def tier1Docs (cands : List (String × Option ℚ)) (nResults : Nat) : List String :=
  ((tier1Sorted cands).take nResults).map Prod.fst

/-- The low-count relaxation scan of `VectorStore.query`: re-scan the raw
candidates with the absolute floor `similarity >= 0.05`, skipping the marker
and documents already in `final_documents`. -/
def tier2Additional (cands : List (String × Option ℚ)) (finalDocs : List String) :
    List String :=
  cands.filterMap (fun c =>
    if c.1 ≠ "data_hash" ∧ c.1 ∉ finalDocs ∧ (0.05 : ℚ) ≤ simOf c.2 then some c.1
    else none)

/-- `_fallback_query_all_docs`: all stored documents in storage order, minus
the `"data_hash"` marker text, truncated to `FALLBACK_LIMIT`.  A stored entry
is an `(id, document)` pair; only the document text is consulted. -/
def fallback_query_all_docs (store : List (String × String)) : List String :=
  ((store.map Prod.snd).filter (fun d => d ≠ "data_hash")).take FALLBACK_LIMIT

/--
`VectorStore.query`: the neighbor search either fails (`Except.error`) or
returns raw candidates `(documentText, optional distance)`.  Tier 1 filters
and sorts; if it is empty and fallback is enabled the whole store is dumped;
if it has fewer than three documents the tier-2 scan extends it to at most
five; an exception routes to the dump exactly when fallback is enabled.
-/
def tier2Extended (cands : List (String × Option ℚ)) (nResults : Nat) : List String :=
  tier1Docs cands nResults ++
    (tier2Additional cands (tier1Docs cands nResults)).take (5 - (tier1Docs cands nResults).length)

def vector_store_query {ε : Type} (store : List (String × String))
    (search : Except ε (List (String × Option ℚ))) (nResults : Nat)
    (fallbackToAllDocs : Bool) : Except ε (List String) :=
  match search with
  | Except.error e =>
    if fallbackToAllDocs then Except.ok (fallback_query_all_docs store)
    else Except.error e
  | Except.ok cands =>
    if tier1Docs cands nResults = [] ∧ fallbackToAllDocs then
      Except.ok (fallback_query_all_docs store)
    else if (tier1Docs cands nResults).length < 3 then
      if tier2Extended cands nResults = [] ∧ fallbackToAllDocs then
        Except.ok (fallback_query_all_docs store)
      else Except.ok (tier2Extended cands nResults)
    else Except.ok (tier1Docs cands nResults)

/-- The fallback dump never contains the marker text. -/
theorem not_marker_mem_fallback (store : List (String × String)) :
    "data_hash" ∉ fallback_query_all_docs store := by
  intro h
  have h2 := List.mem_of_mem_take h
  have h3 := (List.mem_filter.mp h2).2
  simp at h3

/-- Tier 1 never keeps the marker text. -/
theorem not_marker_mem_tier1 (cands : List (String × Option ℚ)) (n : Nat) :
    "data_hash" ∉ tier1Docs cands n := by
  intro h
  rcases List.mem_map.mp h with ⟨pair, hmem, hfst⟩
  have h2 : pair ∈ tier1Sorted cands := List.mem_of_mem_take hmem
  rw [tier1Sorted] at h2
  have h3 := (List.perm_insertionSort _ _).mem_iff.mp h2
  rcases List.mem_filterMap.mp h3 with ⟨c, _, hc⟩
  by_cases hcond : c.1 ≠ "data_hash" ∧ MIN_SIMILARITY_THRESHOLD * 0.8 ≤ simOf c.2
  · rw [if_pos hcond, Option.some.injEq] at hc
    apply hcond.1
    rw [← hc] at hfst
    exact hfst
  · rw [if_neg hcond] at hc
    cases hc

/-- The tier-2 scan never adds the marker text. -/
theorem not_marker_mem_tier2 (cands : List (String × Option ℚ)) (finalDocs : List String) :
    "data_hash" ∉ tier2Additional cands finalDocs := by
  intro h
  rcases List.mem_filterMap.mp h with ⟨c, _, hc⟩
  by_cases hcond : c.1 ≠ "data_hash" ∧ c.1 ∉ finalDocs ∧ (0.05 : ℚ) ≤ simOf c.2
  · rw [if_pos hcond, Option.some.injEq] at hc
    exact hcond.1 hc
  · rw [if_neg hcond] at hc
    cases hc

/-- No result the cascade ever returns contains the marker text. -/
theorem marker_not_mem_query {ε : Type} (store : List (String × String))
    (search : Except ε (List (String × Option ℚ))) (n : Nat) (fb : Bool)
    (r : List String) (h : vector_store_query store search n fb = Except.ok r) :
    "data_hash" ∉ r := by
  intro hmem
  cases search with
  | error e =>
    rw [vector_store_query] at h
    split at h
    · rw [Except.ok.injEq] at h
      subst h
      exact not_marker_mem_fallback store hmem
    · exact Except.noConfusion h
  | ok cands =>
    rw [vector_store_query] at h
    split at h
    · rw [Except.ok.injEq] at h
      subst h
      exact not_marker_mem_fallback store hmem
    · split at h
      · split at h
        · rw [Except.ok.injEq] at h
          subst h
          exact not_marker_mem_fallback store hmem
        · rw [Except.ok.injEq] at h
          subst h
          rcases List.mem_append.mp hmem with h1 | h2
          · exact not_marker_mem_tier1 cands n h1
          · exact not_marker_mem_tier2 cands (tier1Docs cands n)
              (List.mem_of_mem_take h2)
      · rw [Except.ok.injEq] at h
        subst h
        exact not_marker_mem_tier1 cands n hmem

/-- When tier 1 comes back empty and fallback is on, the dump is returned. -/
theorem query_tier1_empty_dump (ε : Type) (store : List (String × String))
    (cands : List (String × Option ℚ)) (n : Nat) (h : tier1Docs cands n = []) :
    vector_store_query store (Except.ok cands : Except ε _) n true =
      Except.ok (fallback_query_all_docs store) := by
  rw [vector_store_query, if_pos ⟨h, rfl⟩]

/--
**C2 (amended).** With fallback enabled, the full-fallback tier (store dump)
is entered exactly when tier 1 yields zero fragments or the search call
fails; the tier-2 relaxation (floor 0.05) runs only when tier 1 yields at
least one but fewer than three fragments.  In particular a query whose
tier-1 output is empty returns the store dump even when some non-marker
candidate has similarity at least 0.05 — the tier-2 scan is skipped, not
consulted, in that case.
-/
theorem c2_cascade_order (ε : Type) (store : List (String × String))
    (cands : List (String × Option ℚ)) (n : Nat)
    (h : tier1Docs cands n = []) :
    vector_store_query store (Except.ok cands : Except ε _) n true =
      Except.ok (fallback_query_all_docs store) :=
  query_tier1_empty_dump ε store cands n h

/-- Witness for C2 (amended) at a concrete input. -/
theorem c2_witness :
    tier1Docs [("docA", some (mkRat 93 100))] 5 = [] ∧
      vector_store_query [("0", "s1")]
          (Except.ok [("docA", some (mkRat 93 100))] : Except Unit _) 5 true =
        Except.ok (fallback_query_all_docs [("0", "s1")]) :=
  ⟨by decide, c2_cascade_order Unit [("0", "s1")] [("docA", some (mkRat 93 100))] 5 (by decide)⟩

/--
**C2 counterexample.** A candidate with similarity `0.07` (at least the 0.05
floor) and empty tier-1 output: the code returns the store dump `["s1"]`,
not the tier-2 output `["docA"]` that the claim promises.
-/
theorem c2_counterexample :
    tier1Docs [("docA", some (mkRat 93 100))] 5 = [] ∧
      (0.05 : ℚ) ≤ simOf (some (mkRat 93 100)) ∧
      (tier2Additional [("docA", some (mkRat 93 100))]
          (tier1Docs [("docA", some (mkRat 93 100))] 5)).take 5 = ["docA"] ∧
      vector_store_query [("0", "s1")]
          (Except.ok [("docA", some (mkRat 93 100))] : Except Unit _) 5 true =
        Except.ok ["s1"] ∧
      ("s1" : String) ≠ "docA" := by
  refine ⟨by decide, by decide, by decide, ?_, by decide⟩
  rfl

/--
**C3.** Whenever tier 1 and tier 2 both yield zero fragments (with fallback
enabled), the result is the fallback dump: exactly
`min FALLBACK_LIMIT (number of stored fragments excluding the marker)`
fragments, in storage order (a sublist of the stored document sequence).
-/
theorem c3_fallback_count (ε : Type) (store : List (String × String))
    (cands : List (String × Option ℚ)) (n : Nat)
    (h1 : tier1Docs cands n = []) (h2 : tier2Additional cands [] = []) :
    vector_store_query store (Except.ok cands : Except ε _) n true =
        Except.ok (fallback_query_all_docs store) ∧
      (fallback_query_all_docs store).length =
        min FALLBACK_LIMIT
          ((store.map Prod.snd).filter (fun d => d ≠ "data_hash")).length ∧
      (fallback_query_all_docs store).Sublist (store.map Prod.snd) := by
  refine ⟨query_tier1_empty_dump ε store cands n h1, ?_, ?_⟩
  · rw [fallback_query_all_docs, List.length_take]
  · exact (List.take_sublist _ _).trans (List.filter_sublist _)

/-- Witness for C3 at a concrete input. -/
theorem c3_witness :
    tier1Docs ([] : List (String × Option ℚ)) 5 = [] ∧
      tier2Additional ([] : List (String × Option ℚ)) [] = [] ∧
      vector_store_query [("0", "a"), ("1", "b"), ("data_hash", "data_hash")]
          (Except.ok ([] : List (String × Option ℚ)) : Except Unit _) 5 true =
        Except.ok (fallback_query_all_docs
          [("0", "a"), ("1", "b"), ("data_hash", "data_hash")]) ∧
      fallback_query_all_docs [("0", "a"), ("1", "b"), ("data_hash", "data_hash")] =
        ["a", "b"] :=
  ⟨by decide, by decide,
    (c3_fallback_count Unit [("0", "a"), ("1", "b"), ("data_hash", "data_hash")]
      [] 5 (by decide) (by decide)).1, by decide⟩

/--
**C4.** For every store content and every query outcome, the fingerprint
marker text is never contained in the returned result sequence, in any tier
of the cascade including the full fallback and the search-failure route.
-/
theorem c4_marker_never_returned (ε : Type) (store : List (String × String))
    (search : Except ε (List (String × Option ℚ))) (n : Nat) (fb : Bool)
    (r : List String) (h : vector_store_query store search n fb = Except.ok r) :
    "data_hash" ∉ r :=
  marker_not_mem_query store search n fb r h

/-- Witness for C4 at a concrete input. -/
theorem c4_witness :
    vector_store_query [("data_hash", "data_hash"), ("1", "x")]
        (Except.ok [("x", some (mkRat 1 2))] : Except Unit _) 5 true =
      Except.ok ["x"] ∧ "data_hash" ∉ ["x"] :=
  ⟨rfl, c4_marker_never_returned Unit [("data_hash", "data_hash"), ("1", "x")]
    (Except.ok [("x", some (mkRat 1 2))]) 5 true ["x"] rfl⟩

/--
**C5.** If the neighbor-search call raises, then with fallback enabled the
error is swallowed and the store dump is returned; with fallback disabled
the same error propagates to the caller.
-/
theorem c5_search_error_routing (ε : Type) (store : List (String × String))
    (e : ε) (n : Nat) :
    vector_store_query store (Except.error e) n true =
        Except.ok (fallback_query_all_docs store) ∧
      vector_store_query store (Except.error e) n false = Except.error e :=
  ⟨rfl, rfl⟩

/--
**C10.** Marker exclusion is decided by comparing document text, not stored
id: a stored fragment whose text is exactly `"data_hash"` is excluded from
the returned results even when its id `i` differs from `"data_hash"`, i.e.
when it is ordinary corpus content rather than the fingerprint marker.
-/
theorem c10_exclusion_by_text (ε : Type) (pre post : List (String × String))
    (i : String) (cands : List (String × Option ℚ)) (n : Nat) (fb : Bool)
    (r : List String) (hi : i ≠ "data_hash")
    (h : vector_store_query (pre ++ (i, "data_hash") :: post)
        (Except.ok cands : Except ε _) n fb = Except.ok r) :
    "data_hash" ∉ r :=
  marker_not_mem_query (pre ++ (i, "data_hash") :: post) (Except.ok cands) n fb r h

/-- Witness for C10 at a concrete input: an ordinary stored entry with id
`"7"` and text `"data_hash"` is dropped from the fallback dump. -/
theorem c10_witness :
    ("7" : String) ≠ "data_hash" ∧
      vector_store_query [("7", "data_hash")]
          (Except.ok ([] : List (String × Option ℚ)) : Except Unit _) 5 true =
        Except.ok ([] : List String) ∧
      "data_hash" ∉ ([] : List String) :=
  ⟨by decide, rfl,
    c10_exclusion_by_text Unit [] [] "7" [] 5 true [] (by decide) rfl⟩

/-! ### Context assembler (rag_system.py) -/

/-- The ideograph class of the keyword regex: `[一-鿿]`. -/
def isCJK (c : Char) : Bool := decide (0x4e00 ≤ c.toNat ∧ c.toNat ≤ 0x9fff)

/-- Model of the regex class `\w` for the corpora at hand: alphanumerics,
underscore, and CJK ideographs (which are word characters in Python's `re`). -/
def isWordChar (c : Char) : Bool := c.isAlphanum || c == '_' || isCJK c

/--
`re.findall(r'[一-鿿]+|\w+', s)`: scan left to right; at each
position the first alternative takes a maximal ideograph run, otherwise the
second takes a maximal word-character run (which may itself contain
ideographs), otherwise the character is skipped.  `fuel` is an upper bound
on the remaining length, present only to make the recursion structural; the
scanner is always called with `fuel = l.length`.
-/
def tokenizeAux (fuel : Nat) (l : List Char) : List (List Char) :=
  match fuel, l with
  | 0, _ => []
  | _, [] => []
  | fuel + 1, c :: rest =>
    if isCJK c then
      (c :: rest.takeWhile isCJK) :: tokenizeAux fuel (rest.dropWhile isCJK)
    else if isWordChar c then
      (c :: rest.takeWhile isWordChar) :: tokenizeAux fuel (rest.dropWhile isWordChar)
    else tokenizeAux fuel rest

/-- The keyword tokenizer of `_prioritize_documents`. -/
def tokenize (l : List Char) : List (List Char) := tokenizeAux l.length l

/--
Python `haystack.count(needle)` for a non-empty needle: scan left to right,
counting non-overlapping occurrences and skipping the needle's length after
each hit.  `fuel` bounds the remaining haystack length to make the recursion
structural; the function is always called with `fuel = haystack.length`.
-/
def countSubAux (needle : List Char) : Nat → List Char → Nat
  | 0, _ => 0
  | _, [] => 0
  | fuel + 1, c :: rest =>
    if needle.isPrefixOf (c :: rest) then
      1 + countSubAux needle fuel ((c :: rest).drop needle.length)
    else countSubAux needle fuel rest

/-- Python `haystack.count(needle)` (for the empty needle Python returns
`len + 1`; the keywords used here are never empty). -/
def countSub (haystack needle : List Char) : Nat :=
  if needle.isEmpty then haystack.length + 1 else countSubAux needle haystack.length haystack

/-- `keywords = [k for k in re.findall(..., question.lower()) if len(k) > 1]`. -/
def question_keywords (question : String) : List (List Char) :=
  (tokenize (question.data.map Char.toLower)).filter (fun k => 1 < k.length)

/-- The keyword-hit score of one document:
`sum(doc.lower().count(keyword) for keyword in keywords)`. -/
def keyword_score (keywords : List (List Char)) (doc : String) : Nat :=
  (keywords.map (fun kw => countSub (doc.data.map Char.toLower) kw)).sum

/-- The sort key of `_prioritize_documents`:
`sort(key=lambda x: x[1], reverse=True)` — descending score, non-strict
("may come before"), the extensional order of Python's stable sort. -/
abbrev scoreDescRel : (String × Nat) → (String × Nat) → Prop := fun a b => b.2 ≤ a.2

/-- `scoreDescRel` lifted to position-tagged entries, ignoring the tag. -/
abbrev scoreDescIdxRel : (Nat × String × Nat) → (Nat × String × Nat) → Prop :=
  fun p q => q.2.2 ≤ p.2.2

/-- The spec-side key: score descending, ties by original position. -/
abbrev scoreLexRel : (Nat × String × Nat) → (Nat × String × Nat) → Prop :=
  fun p q => q.2.2 < p.2.2 ∨ (p.2.2 = q.2.2 ∧ p.1 ≤ q.1)

/-- The strict version of `scoreLexRel`. -/
abbrev scoreStrictRel : (Nat × String × Nat) → (Nat × String × Nat) → Prop :=
  fun p q => q.2.2 < p.2.2 ∨ (p.2.2 = q.2.2 ∧ p.1 < q.1)

/-- `_prioritize_documents`: score each document, then
`scored_docs.sort(key=lambda x: x[1], reverse=True)` — a stable descending
sort, embedded as `insertionSort` with the non-strict descending relation. -/
def prioritize_documents (documents : List String) (question : String) : List String :=
  (List.insertionSort scoreDescRel
    (documents.map (fun d => (d, keyword_score (question_keywords question) d)))).map
    Prod.fst

/-- `"\n".join(docs)`. -/
def joinNL : List String → String
  | [] => ""
  | [d] => d
  | d :: e :: rest => d ++ "\n" ++ joinNL (e :: rest)

/-- The over-quantity cap of `RAGSystem.query`:
`if len(filtered_documents) > 20: filtered_documents = filtered_documents[:30]`. -/
def capDocs (documents : List String) : List String :=
  if 20 < documents.length then documents.take 30 else documents

/-- The context assembly of `RAGSystem.query` (lines 65-82): cap the count,
join with newlines; if the joined context exceeds 8000 characters, re-rank
by keyword score and join the top 20. -/
def assembleContext (documents : List String) (question : String) : String :=
  if 8000 < (joinNL (capDocs documents)).length then
    joinNL ((prioritize_documents (capDocs documents) question).take 20)
  else joinNL (capDocs documents)

/--
The spec's description of the re-ranking, as a definition of its own: pair
every scored document with its original position and sort by the strict
lexicographic key (score descending, then original position ascending) —
"sort candidates descending by total hit count (stable sort — ties keep
prior relative order)".
-/
def specStableRank (documents : List String) (question : String) : List String :=
  (((List.insertionSort scoreLexRel
      ((documents.map
        (fun d => (d, keyword_score (question_keywords question) d))).enum)).map
    Prod.snd).map Prod.fst)

theorem map_snd_orderedInsert (x : Nat × String × Nat) (l : List (Nat × String × Nat)) :
    (List.orderedInsert scoreDescIdxRel x l).map Prod.snd =
      List.orderedInsert scoreDescRel x.2 (l.map Prod.snd) := by
  induction l with
  | nil => rfl
  | cons b t ih =>
    by_cases h : scoreDescIdxRel x b
    · rw [List.map_cons, List.orderedInsert, List.orderedInsert, if_pos h, if_pos h]
      rfl
    · rw [List.map_cons, List.orderedInsert, List.orderedInsert, if_neg h, if_neg h,
        List.map_cons, ih]

theorem map_snd_insertionSort (l : List (Nat × String × Nat)) :
    (List.insertionSort scoreDescIdxRel l).map Prod.snd =
      List.insertionSort scoreDescRel (l.map Prod.snd) := by
  induction l with
  | nil => rfl
  | cons a t ih =>
    rw [List.map_cons, List.insertionSort, List.insertionSort, map_snd_orderedInsert, ih]

theorem orderedInsert_strict_pairwise (x : Nat × String × Nat)
    (l : List (Nat × String × Nat)) (hp : l.Pairwise scoreStrictRel)
    (hidx : ∀ y ∈ l, x.1 < y.1) :
    (List.orderedInsert scoreDescIdxRel x l).Pairwise scoreStrictRel := by
  induction l with
  | nil => simp
  | cons b t ih =>
    rcases List.pairwise_cons.mp hp with ⟨hb, ht⟩
    by_cases h : scoreDescIdxRel x b
    · rw [List.orderedInsert, if_pos h]
      refine List.pairwise_cons.mpr ⟨?_, hp⟩
      intro y hy
      rcases List.mem_cons.mp hy with rfl | hyt
      · have h1 := hidx y (List.mem_cons_self y t)
        simp only [scoreDescIdxRel, scoreStrictRel] at *
        omega
      · have h1 := hidx y (List.mem_cons_of_mem b hyt)
        have h2 := hb y hyt
        simp only [scoreDescIdxRel, scoreStrictRel] at *
        omega
    · rw [List.orderedInsert, if_neg h]
      refine List.pairwise_cons.mpr
        ⟨?_, ih ht (fun y hy => hidx y (List.mem_cons_of_mem b hy))⟩
      intro y hy
      rcases (List.mem_orderedInsert scoreDescIdxRel).mp hy with rfl | hyt
      · simp only [scoreDescIdxRel, scoreStrictRel] at *
        omega
      · exact hb y hyt

/-- Stability of the embedded stable sort: on position-tagged entries with
increasing tags, sorting by score only yields a strictly lex-sorted list
(ties stay in tag order). -/
theorem insertionSort_desc_strict (l : List (Nat × String × Nat))
    (h : l.Pairwise (fun p q => p.1 < q.1)) :
    (List.insertionSort scoreDescIdxRel l).Pairwise scoreStrictRel := by
  induction l with
  | nil => simp
  | cons a t ih =>
    rcases List.pairwise_cons.mp h with ⟨ha, ht⟩
    rw [List.insertionSort]
    refine orderedInsert_strict_pairwise a _ (ih ht) ?_
    intro y hy
    exact ha y ((List.perm_insertionSort scoreDescIdxRel t).mem_iff.mp hy)

/-- The lex sort of position-tagged entries with distinct tags is also
strictly lex-sorted. -/
theorem insertionSort_lex_strict (l : List (Nat × String × Nat))
    (h : l.Pairwise (fun p q => p.1 < q.1)) :
    (List.insertionSort scoreLexRel l).Pairwise scoreStrictRel := by
  haveI : IsTotal (Nat × String × Nat) scoreLexRel :=
    ⟨fun p q => by simp only [scoreLexRel]; omega⟩
  haveI : IsTrans (Nat × String × Nat) scoreLexRel :=
    ⟨fun p q r hpq hqr => by simp only [scoreLexRel] at *; omega⟩
  have hs := List.sorted_insertionSort scoreLexRel l
  have hperm := List.perm_insertionSort scoreLexRel l
  have hnd : (l.map Prod.fst).Nodup :=
    List.pairwise_map.mpr (h.imp (fun hab => Nat.ne_of_lt hab))
  have hnd' : ((List.insertionSort scoreLexRel l).map Prod.fst).Nodup :=
    (hperm.map Prod.fst).nodup_iff.mpr hnd
  have hne : (List.insertionSort scoreLexRel l).Pairwise (fun p q => p.1 ≠ q.1) :=
    List.pairwise_map.mp hnd'
  exact (hs.and hne).imp
    (fun hab => by simp only [scoreLexRel, scoreStrictRel] at *; omega)

theorem enum_fst_pairwise {β : Type} (l : List β) :
    (l.enum).Pairwise (fun p q => p.1 < q.1) := by
  have h := List.pairwise_lt_range l.length
  rw [← List.enum_map_fst] at h
  exact List.pairwise_map.mp h

/-- Sorting position-tagged entries by score only (stably) is the same as
sorting by the strict lexicographic (score, position) key. -/
theorem insertionSort_desc_eq_lex (l : List (Nat × String × Nat))
    (h : l.Pairwise (fun p q => p.1 < q.1)) :
    List.insertionSort scoreDescIdxRel l = List.insertionSort scoreLexRel l :=
  pairwise_perm_eq
    (fun p q hpq hqp => by simp only [scoreStrictRel] at *; omega)
    ((List.perm_insertionSort scoreDescIdxRel l).trans
      (List.perm_insertionSort scoreLexRel l).symm)
    (insertionSort_desc_strict l h) (insertionSort_lex_strict l h)

/-- The code's stable descending sort agrees with the spec's stable ranking. -/
theorem prioritize_documents_eq_specStableRank (documents : List String)
    (question : String) :
    prioritize_documents documents question = specStableRank documents question := by
  rw [prioritize_documents, specStableRank,
    ← insertionSort_desc_eq_lex _ (enum_fst_pairwise _), map_snd_insertionSort,
    List.enum_map_snd]

/--
**C6.** When the concatenated candidate context exceeds the 8000-character
budget, the assembler re-ranks the (count-capped) candidates by
keyword-overlap score — tokenizing the lowercased question into ideographic
runs and word runs, discarding single-character tokens, scoring each
candidate by total case-insensitive substring-occurrence count — stably
sorts descending by score (ties keep prior relative order: the lex key
(score descending, original position ascending) of `specStableRank`), and
the final context is the concatenation of the top 20 so ranked, which are a
permutation-selection of the candidates.
-/
theorem c6_keyword_rerank (documents : List String) (question : String)
    (h : 8000 < (joinNL (capDocs documents)).length) :
    assembleContext documents question =
      joinNL ((specStableRank (capDocs documents) question).take 20) ∧
    (specStableRank (capDocs documents) question).Perm (capDocs documents) := by
  constructor
  · rw [assembleContext, if_pos h, prioritize_documents_eq_specStableRank]
  · rw [specStableRank]
    refine (((List.perm_insertionSort scoreLexRel
        (((capDocs documents).map
          (fun d => (d, keyword_score (question_keywords question) d))).enum)).map
        Prod.snd).map Prod.fst).trans ?_
    rw [List.enum_map_snd, List.map_map]
    have hid : (Prod.fst ∘ fun d : String =>
        (d, keyword_score (question_keywords question) d)) = id := rfl
    rw [hid, List.map_id]

/-- The length of `"\n".join` of `n + 1` copies of one string. -/
theorem joinNL_replicate_length (n : Nat) (s : String) :
    (joinNL (List.replicate (n + 1) s)).length = (n + 1) * s.length + n := by
  induction n with
  | zero => simp [joinNL]
  | succ k ih =>
    rw [List.replicate_succ, List.replicate_succ, joinNL, ← List.replicate_succ,
      String.length_append, String.length_append, ih]
    have hnl : ("\n" : String).length = 1 := rfl
    have hmul : (k + 1 + 1) * s.length = (k + 1) * s.length + s.length := by ring
    omega

def c6docs : List String := List.replicate 21 (String.mk (List.replicate 400 'a'))

/-- Witness for C6: 21 documents of 400 characters exceed the budget. -/
theorem c6_witness :
    8000 < (joinNL (capDocs c6docs)).length ∧
      assembleContext c6docs "hi" =
        joinNL ((specStableRank (capDocs c6docs) "hi").take 20) := by
  have hblen : (String.mk (List.replicate 400 'a')).length = 400 := by decide
  have hcap : capDocs c6docs = c6docs := by
    rw [capDocs, if_pos]
    · exact List.take_of_length_le (by rw [c6docs, List.length_replicate]; omega)
    · rw [c6docs, List.length_replicate]; omega
  have h21 : (21 : Nat) = 20 + 1 := rfl
  have hlen : (joinNL (capDocs c6docs)).length = 8420 := by
    rw [hcap, c6docs, h21, joinNL_replicate_length, hblen]
  have h : 8000 < (joinNL (capDocs c6docs)).length := by omega
  exact ⟨h, (c6_keyword_rerank c6docs "hi" h).1⟩

/-- The length of the longest candidate. -/
def maxDocLen (documents : List String) : Nat :=
  (documents.map String.length).foldr max 0

theorem le_maxDocLen (documents : List String) (d : String) (hd : d ∈ documents) :
    d.length ≤ maxDocLen documents := by
  induction documents with
  | nil => cases hd
  | cons a t ih =>
    rcases List.mem_cons.mp hd with rfl | ht
    · exact Nat.le_max_left _ _
    · exact Nat.le_trans (ih ht) (Nat.le_max_right _ _)

theorem joinNL_length_le (L : List String) (m : Nat)
    (hm : ∀ d ∈ L, d.length ≤ m) :
    (joinNL L).length ≤ L.length * m + (L.length - 1) := by
  induction L with
  | nil => simp [joinNL]
  | cons d rest ih =>
    cases rest with
    | nil =>
      have := hm d (List.mem_cons_self d [])
      simpa [joinNL] using this
    | cons e t =>
      have h1 := hm d (List.mem_cons_self d (e :: t))
      have h2 := ih (fun x hx => hm x (List.mem_cons_of_mem d hx))
      rw [joinNL, String.length_append, String.length_append]
      have hnl : ("\n" : String).length = 1 := rfl
      have hmul : (t.length + 1 + 1) * m = (t.length + 1) * m + m := by ring
      simp only [List.length_cons] at *
      omega

theorem mem_capDocs (documents : List String) (d : String)
    (hd : d ∈ capDocs documents) : d ∈ documents := by
  rw [capDocs] at hd
  split at hd
  · exact List.mem_of_mem_take hd
  · exact hd

theorem mem_prioritize_documents (documents : List String) (question : String)
    (d : String) (hd : d ∈ prioritize_documents documents question) :
    d ∈ documents := by
  rcases List.mem_map.mp hd with ⟨pair, hmem, hfst⟩
  have h2 := (List.perm_insertionSort scoreDescRel _).mem_iff.mp hmem
  rcases List.mem_map.mp h2 with ⟨x, hx, hpair⟩
  rw [← hpair] at hfst
  rw [← hfst]
  exact hx

/--
**C7 (amended).** The context produced by the assembler is bounded by the
8000-character budget when the candidates fit, and otherwise by twenty
fragments' worth of length plus nineteen newline separators — not by the
budget plus a single fragment as originally claimed.
-/
theorem c7_context_length_bound (documents : List String) (question : String) :
    (assembleContext documents question).length ≤
      max 8000 (20 * maxDocLen documents + 19) := by
  rw [assembleContext]
  split
  · refine Nat.le_trans ?_ (Nat.le_max_right _ _)
    have hlen20 : ((prioritize_documents (capDocs documents) question).take 20).length ≤ 20 :=
      List.length_take_le _ _
    have hbound : ∀ d ∈ (prioritize_documents (capDocs documents) question).take 20,
        d.length ≤ maxDocLen documents := by
      intro d hd
      exact le_maxDocLen documents d
        (mem_capDocs documents d (mem_prioritize_documents _ question d
          (List.mem_of_mem_take hd)))
    have hjoin := joinNL_length_le _ (maxDocLen documents) hbound
    have hmul := Nat.mul_le_mul_right (maxDocLen documents) hlen20
    omega
  · next hle => exact Nat.le_trans (by omega) (Nat.le_max_left _ _)

def c7str : String := String.mk (List.replicate 430 'a')

def c7docs : List String := List.replicate 21 c7str

/--
**C7 counterexample.** 21 candidates of 430 characters each: the joined
context (9050 characters) exceeds the budget, and the re-ranked top-20
output is 8619 characters — more than the budget plus one fragment's worth
(8000 + 430 + 1).  The slack of the final concatenation step is twenty
fragments, not one.
-/
theorem c7_counterexample :
    maxDocLen c7docs = 430 ∧
      (assembleContext c7docs "").length = 8619 ∧
      8000 + maxDocLen c7docs + 1 < (assembleContext c7docs "").length := by
  have hstrlen : c7str.length = 430 := by decide
  have hmax : maxDocLen c7docs = 430 := by
    rw [maxDocLen, c7docs, List.map_replicate, hstrlen]
    decide
  have hcap : capDocs c7docs = c7docs := by
    rw [capDocs, if_pos]
    · exact List.take_of_length_le (by rw [c7docs, List.length_replicate]; omega)
    · rw [c7docs, List.length_replicate]; omega
  have h21 : (21 : Nat) = 20 + 1 := rfl
  have hover : 8000 < (joinNL (capDocs c7docs)).length := by
    rw [hcap, c7docs, h21, joinNL_replicate_length, hstrlen]
    omega
  have hkw : question_keywords "" = [] := rfl
  have hprior : prioritize_documents c7docs "" = List.replicate 21 c7str := by
    rw [prioritize_documents]
    simp only [hkw]
    rw [c7docs, List.map_replicate]
    have h0 : keyword_score [] c7str = 0 := rfl
    have hsorted : List.Sorted scoreDescRel (List.replicate 21 (c7str, 0)) :=
      List.pairwise_replicate.mpr (Or.inr (Nat.le_refl 0))
    rw [h0, hsorted.insertionSort_eq, List.map_replicate]
  have hassemble : assembleContext c7docs "" = joinNL (List.replicate 20 c7str) := by
    rw [assembleContext, if_pos hover, hcap, hprior, List.take_replicate]
    norm_num
  have hflen : (assembleContext c7docs "").length = 8619 := by
    rw [hassemble]
    have h20 : (20 : Nat) = 19 + 1 := rfl
    rw [h20, joinNL_replicate_length, hstrlen]
  exact ⟨hmax, hflen, by omega⟩
